import Mathlib

/-!
Verification of the SiteOps change-detection, staleness-gating and
deployment-arbitration core against its natural-language specification.

The definitions below are shallow embeddings of the Python source:
  * `scripts/collector.py`  — `Collector._calculate_significance`, the
    summary-bucket loop of `Collector.run`;
  * `scripts/deployer.py`   — `Deployer.run` gatekeeper flow,
    `Deployer._check_freshness`, `Deployer._should_create_pr`;
  * `scripts/editor.py`     — `EditorAgent._add_deterministic_checks`,
    `EditorAgent._is_valid_html`;
  * `scripts/writer.py` / `scripts/utils/github_client.py` — the
    manual-section preserver (`_extract_manual_sections`,
    `_inject_manual_sections`, including the replacement-template
    semantics of Python `re.sub`).

Strings from the Python `str` world are modelled as `List Char` where
character-level scanning matters, and as `String` elsewhere.  Content
fingerprints (`hashlib.sha1(...).hexdigest()`) are modelled by an
explicit fingerprint function parameter `fp : String → String`, since
only equality of fingerprints is ever consulted by the code.
-/

namespace SiteOps

/-! ## Collector: significance scoring (`Collector._calculate_significance`) -/

/-- The `scoring` section of `config/settings.yaml`, as read by
`_calculate_significance`. -/
structure ScoringCfg where
  new_release : Int
  readme_changed : Int
  feat_commit : Int
  refactor_commit : Int
  fix_commit : Int
  no_commits : Int
  update_threshold : Int
  deriving DecidableEq, Repr

/-- A commit record as consumed by the scorer: only the conventional-commit
`type` field is read (`commit.get("type", "other")`). -/
structure Commit where
  ctype : String
  deriving DecidableEq, Repr

/-- A release record: the scorer only tests list emptiness. -/
structure Release where
  tag : String
  deriving DecidableEq, Repr

/-- The dictionary returned by `_calculate_significance`. -/
structure SigVerdict where
  change_score : Int
  status : String
  change_reason : String
  deriving DecidableEq, Repr

/-- One step of the `for commit in commits` loop of
`_calculate_significance` (lines 277-291 of collector.py): add the
configured weight of the commit's category and append the category's
reason token on its first occurrence; docs/style/chore/other add nothing. -/
def scoreCommit (sc : ScoringCfg) (acc : Int × List String) (c : Commit) : Int × List String :=
  let (score, reasons) := acc
  if c.ctype = "feat" then
    (score + sc.feat_commit,
      if reasons.contains "feature_commit" then reasons else reasons ++ ["feature_commit"])
  else if c.ctype = "refactor" then
    (score + sc.refactor_commit,
      if reasons.contains "refactor_commit" then reasons else reasons ++ ["refactor_commit"])
  else if c.ctype = "fix" then
    (score + sc.fix_commit,
      if reasons.contains "fix_commit" then reasons else reasons ++ ["fix_commit"])
  else
    (score, reasons)

/-- `Collector._calculate_significance` (collector.py lines 228-301). -/
def calculateSignificance (sc : ScoringCfg) (commits : List Commit) (releases : List Release)
    (readme_changed : Bool) (is_new : Bool) : SigVerdict :=
  if is_new then
    { change_score := 999, status := "new", change_reason := "new_project" }
  else if commits.isEmpty && releases.isEmpty then
    { change_score := sc.no_commits, status := "skip", change_reason := "no_activity" }
  else
    let s0 : Int × List String := (0, [])
    let s1 := if releases.isEmpty then s0 else (s0.1 + sc.new_release, s0.2 ++ ["release_tag"])
    let s2 := if readme_changed then (s1.1 + sc.readme_changed, s1.2 ++ ["readme_changed"]) else s1
    let s3 := commits.foldl (scoreCommit sc) s2
    { change_score := s3.1,
      status := if s3.1 ≥ sc.update_threshold then "update" else "skip",
      change_reason := s3.2.headD "low_significance" }

/-! ## Collector: summary buckets (`Collector.run`, lines 64-90) -/

/-- The fields of a per-project record that the summary loop reads. -/
structure ProjectData where
  locked : Bool
  status : String
  deriving DecidableEq, Repr

/-- The `context["summary"]` counters. -/
structure Summary where
  total : Nat
  updates : Nat
  skips : Nat
  newCount : Nat
  lockedCount : Nat
  deriving DecidableEq, Repr

/-- One iteration of the summary-update chain in `Collector.run`:
`if locked / elif status == "update" / elif status == "new" / else`. -/
def updateSummary (s : Summary) (p : ProjectData) : Summary :=
  if p.locked then { s with lockedCount := s.lockedCount + 1 }
  else if p.status = "update" then { s with updates := s.updates + 1 }
  else if p.status = "new" then { s with newCount := s.newCount + 1 }
  else { s with skips := s.skips + 1 }

/-- The whole summary computation of `Collector.run`: `total` is the number
of discovered projects; each processed project updates exactly one bucket. -/
def runSummary (ps : List ProjectData) : Summary :=
  ps.foldl updateSummary { total := ps.length, updates := 0, skips := 0, newCount := 0, lockedCount := 0 }

/-- The record `_collect_project` returns for a locked page
(collector.py lines 144-153): `locked = True`, `status = "skip"`. -/
def lockedProjectData : ProjectData := { locked := true, status := "skip" }

/-- The record `_collect_project` returns when a GitHub fetch fails
(collector.py lines 165-175): `locked = False`, `status = "error"`. -/
def fetchErrorProjectData : ProjectData := { locked := false, status := "error" }

/-! ## Deployer: gatekeeper (`Deployer.run`, `_should_create_pr`),
freshness guard (`_check_freshness`), and dry-run-sensitive I/O edges. -/

/-- The deployer's workflow state: `workflow.mode`,
`workflow.force_pr_on_high_risk`, `workflow.high_risk_threshold`, and the
`DRY_RUN` environment flag, as stored on the `Deployer` object. -/
structure WorkflowCfg where
  mode : String
  force_pr_on_high_risk : Bool
  high_risk_threshold : Int
  dry_run : Bool
  deriving DecidableEq, Repr

/-- An editor verdict as consumed by the deployer: `status`, optional
`reason` (`verdict.get("reason", ...)`), optional `change_percentage`
(`verdict.get("change_percentage", 0)`). -/
structure EditorVerdict where
  status : String
  reason : Option String
  change_percentage : Option Int
  deriving DecidableEq, Repr

/-- `Deployer._should_create_pr` (deployer.py lines 215-232). -/
def shouldCreatePr (cfg : WorkflowCfg) (status : String) (v : EditorVerdict) : Bool :=
  if cfg.mode = "manual" then true
  else if status = "FLAGGED" then true
  else if cfg.force_pr_on_high_risk && (v.change_percentage.getD 0 > cfg.high_risk_threshold) then true
  else false

/-- The terminal decision the gatekeeper makes for one reviewed draft. -/
inductive Decision where
  | pullRequest
  | directWrite
  | skip
  | error
  deriving DecidableEq, Repr

/-- The remote-mutating operations the deployer can perform. -/
inductive RemoteOp where
  | createBranch
  | writeFile
  | openPullReq
  | addLabels
  deriving DecidableEq, Repr

/-- The remote mutations of `Deployer._create_pull_request`
(deployer.py lines 234-309): suppressed entirely under dry-run
(lines 236-237), otherwise branch creation, file create-or-update,
pull-request creation and best-effort labelling. -/
def createPullRequestOps (cfg : WorkflowCfg) : List RemoteOp :=
  if cfg.dry_run then []
  else [RemoteOp.createBranch, RemoteOp.writeFile, RemoteOp.openPullReq, RemoteOp.addLabels]

/-- The remote mutations of `Deployer._direct_push` (deployer.py lines
344-371): suppressed under dry-run, otherwise one file create-or-update
on the target branch. -/
def directPushOps (cfg : WorkflowCfg) : List RemoteOp :=
  if cfg.dry_run then [] else [RemoteOp.writeFile]

/-- What happened while the per-verdict loop body of `Deployer.run`
(deployer.py lines 75-129) processed one draft: the decision taken,
the skip reason recorded (if any), whether `_check_freshness` and
`_should_create_pr` were consulted, and which remote mutations ran. -/
structure StepTrace where
  decision : Decision
  skipReason : Option String
  freshnessChecked : Bool
  riskCheckConsulted : Bool
  remoteOps : List RemoteOp
  deriving DecidableEq, Repr

/-- The per-verdict control flow of `Deployer.run` (deployer.py lines
75-129): REJECT/ERROR verdicts are skipped with the review reason before
any other work; a missing draft file is an error; otherwise the freshness
check runs, a stale result forces the pull-request path, and otherwise
`_should_create_pr` chooses between pull request and direct push. -/
def processVerdict (cfg : WorkflowCfg) (v : EditorVerdict) (stale : Bool)
    (draftExists : Bool) : StepTrace :=
  if v.status = "REJECT" ∨ v.status = "ERROR" then
    { decision := Decision.skip,
      skipReason := some (v.reason.getD "Rejected by Editor"),
      freshnessChecked := false, riskCheckConsulted := false, remoteOps := [] }
  else if !draftExists then
    { decision := Decision.error, skipReason := none,
      freshnessChecked := false, riskCheckConsulted := false, remoteOps := [] }
  else if stale then
    { decision := Decision.pullRequest, skipReason := none,
      freshnessChecked := true, riskCheckConsulted := false,
      remoteOps := createPullRequestOps cfg }
  else if shouldCreatePr cfg v.status v then
    { decision := Decision.pullRequest, skipReason := none,
      freshnessChecked := true, riskCheckConsulted := true,
      remoteOps := createPullRequestOps cfg }
  else
    { decision := Decision.directWrite, skipReason := none,
      freshnessChecked := true, riskCheckConsulted := true,
      remoteOps := directPushOps cfg }

/-! ## Deployer: freshness check (`Deployer._check_freshness`, lines 158-213) -/

/-- The fields of a `context.json` project entry that `_check_freshness`
reads.  `existsFlag` models the `"exists"` key (`exists` is a Lean
keyword). -/
structure CtxProject where
  slug : String
  existsFlag : Bool
  current_html : Option String
  deriving DecidableEq, Repr

/-- The remote file as returned by `target_repo.get_contents`: its git
blob `sha` and its decoded content. -/
structure RemoteFile where
  sha : String
  content : String
  deriving DecidableEq, Repr

/-- The result dictionary of `_check_freshness`. -/
structure FreshnessResult where
  stale : Bool
  expected_sha : Option String
  current_sha : Option String
  deriving DecidableEq, Repr

/-- `Deployer._check_freshness` (deployer.py lines 158-213).
`fp` is the content fingerprint (`hashlib.sha1(...).hexdigest()` in the
source); `context` is the parsed `_data/context.json` (`none` when the
file is missing); `remote` is the current remote artifact (`none` models
the 404 path of `get_contents`).  Note the Python truthiness test
`if project.get("current_html")`: an empty string leaves
`expected_sha` unset, exactly like a missing one. -/
def checkFreshness (fp : String → String) (context : Option (List CtxProject))
    (slug : String) (remote : Option RemoteFile) : FreshnessResult :=
  let base : FreshnessResult := { stale := false, expected_sha := none, current_sha := none }
  match context with
  | none => base
  | some ps =>
    match ps.find? (fun p => p.slug == slug) with
    | none => base
    | some project =>
      if !project.existsFlag then base
      else
        let expected : Option String :=
          match project.current_html with
          | some s => if s = "" then none else some (fp s)
          | none => none
        match remote with
        | some file =>
          let currentHash := fp file.content
          let stale : Bool :=
            match expected with
            | some e => !(currentHash == e)
            | none => false
          { stale := stale, expected_sha := expected, current_sha := some file.sha }
        | none =>
          { stale := project.existsFlag, expected_sha := expected, current_sha := none }

/-! ## String scanning primitives

Shared by the editor's substring tests (Python `in`) and by the
manual-section preserver's regex semantics.  Python strings are
modelled as `List Char`. -/

/-- `dropStart? p l` returns `some r` when `l = p ++ r` (i.e. `p` is a
leading segment of `l`), and `none` otherwise. -/
def dropStart? : List Char → List Char → Option (List Char)
  | [], l => some l
  | _ :: _, [] => none
  | p :: ps, c :: cs => if p = c then dropStart? ps cs else none

/-- `findSub pat l` splits `l` at the first occurrence of the contiguous
segment `pat`: `some (b, a)` with `l = b ++ pat ++ a` and no earlier
occurrence, `none` when `pat` does not occur.  This is the semantics of
a leftmost non-greedy regex search for a literal. -/
def findSub (pat : List Char) : List Char → Option (List Char × List Char)
  | [] =>
    match dropStart? pat [] with
    | some r => some ([], r)
    | none => none
  | c :: cs =>
    match dropStart? pat (c :: cs) with
    | some r => some ([], r)
    | none =>
      match findSub pat cs with
      | some (b, a) => some (c :: b, a)
      | none => none

/-- Boolean substring test: Python's `pat in s`. -/
def occursB (pat l : List Char) : Bool := (findSub pat l).isSome

/-- The occurrence predicate matching `occursB`. -/
def OccursIn (pat l : List Char) : Prop := ∃ b a, l = b ++ pat ++ a

/-! ## Editor: deterministic checks (`EditorAgent._add_deterministic_checks`,
`EditorAgent._is_valid_html`) -/

/-- ASCII lower-case letter, the `[a-z]` character class. -/
def isAsciiLower (c : Char) : Bool := 'a' ≤ c && c ≤ 'z'

/-- Count of `re.findall(r'<[a-z]', s)` matches: positions where `<` is
immediately followed by a lower-case letter.  Matches are two characters
long and can never overlap, so scanning past each match is equivalent. -/
def countOpenTags : List Char → Nat
  | '<' :: c :: rest =>
    if isAsciiLower c then countOpenTags rest + 1 else countOpenTags (c :: rest)
  | _ :: rest => countOpenTags rest
  | [] => 0

/-- Count of `re.findall(r'</[a-z]', s)` matches. -/
def countCloseTags : List Char → Nat
  | '<' :: '/' :: c :: rest =>
    if isAsciiLower c then countCloseTags rest + 1 else countCloseTags ('/' :: c :: rest)
  | _ :: rest => countCloseTags rest
  | [] => 0

/-- `EditorAgent._is_valid_html` (editor.py lines 255-266): requires the
lower-cased draft to contain `<html`/`</html>` and `<body`/`</body>`, and
the open/close tag counts to differ by less than 10. -/
def isValidHtml (html : List Char) : Bool :=
  let lo := html.map Char.toLower
  let has_html := occursB "<html".toList lo && occursB "</html>".toList lo
  let has_body := occursB "<body".toList lo && occursB "</body>".toList lo
  has_html && has_body &&
    ((Int.ofNat (countOpenTags lo) - Int.ofNat (countCloseTags lo)).natAbs < 10)

/-- The policy section consumed by `_add_deterministic_checks`. -/
structure Policy where
  forbidden_words : List String
  required_sections : List String
  deriving DecidableEq, Repr

/-- A review verdict as manipulated by `_add_deterministic_checks`. -/
structure ReviewVerdict where
  status : String
  reason : String
  issues : List String
  deriving DecidableEq, Repr

/-- The ASCII apostrophe, written via its code point to keep it out of
string literals. -/
def quoteChar : Char := '\x27'

/-- `EditorAgent._add_deterministic_checks` (editor.py lines 223-253):
forbidden words may downgrade an `APPROVE` to `FLAGGED`; an invalid HTML
structure always forces `REJECT`; missing required sections only add
issues. -/
def addDeterministicChecks (policy : Policy) (verdict : ReviewVerdict)
    (draft : List Char) : ReviewVerdict :=
  let draftLower := draft.map Char.toLower
  let foundForbidden :=
    policy.forbidden_words.filter (fun w => occursB (w.toList.map Char.toLower) draftLower)
  let issues1 :=
    if foundForbidden.isEmpty then verdict.issues
    else verdict.issues ++ ["Forbidden words found: " ++ String.intercalate ", " foundForbidden]
  let status1 :=
    if !foundForbidden.isEmpty && verdict.status = "APPROVE" then "FLAGGED" else verdict.status
  let reason1 :=
    if !foundForbidden.isEmpty && verdict.status = "APPROVE" then
      "Contains forbidden words: " ++ String.intercalate ", " foundForbidden
    else verdict.reason
  let issues2 :=
    if isValidHtml draft then issues1 else issues1 ++ ["HTML structure appears invalid"]
  let status2 := if isValidHtml draft then status1 else "REJECT"
  let reason2 := if isValidHtml draft then reason1 else "Invalid HTML structure"
  let missingSection (s : String) : Bool :=
    !(occursB ("id=\"".toList ++ s.toList ++ ['\"']) draft) &&
      !(occursB (("id=".toList ++ [quoteChar]) ++ s.toList ++ [quoteChar]) draft)
  let issues3 :=
    issues2 ++ (policy.required_sections.filter missingSection).map
      (fun s => "Missing required section: " ++ s)
  { status := status2, reason := reason2, issues := issues3 }

/-! ## Manual-section preserver

`BioSiteClient._extract_manual_sections` (github_client.py lines 207-211)
uses `re.findall(r'(<!-- MANUAL:(\w+) -->.*?<!-- /MANUAL:\2 -->)', html,
re.DOTALL)`, and `WriterAgent._inject_manual_sections` (writer.py lines
202-228) uses `re.search(r'<!-- MANUAL:(\w+) -->', section)` followed by
`re.sub(rf'<!-- MANUAL:{name} -->.*?<!-- /MANUAL:{name} -->', section,
draft, flags=re.DOTALL)`.

The regex semantics are embedded directly:
  * `(\w+)` is greedy over word characters and must be followed by the
    literal `" -->"`; since a space is not a word character the match is
    exactly the maximal word-character run;
  * `.*?pat` (non-greedy, DOTALL) extends to the first later occurrence
    of the literal `pat`;
  * `findall`/`sub` scan left to right and resume after each
    non-overlapping match, moving one character forward on failure;
  * the replacement argument of `re.sub` is a *template*: backslash
    escapes are interpreted (`\n` becomes a newline, `\1` or an unknown
    letter escape raises `re.error`, `\g<0>` inserts the whole match,
    a backslash before a non-letter is kept as the two characters). -/

/-- Python `\w` on the ASCII plane: letters, digits, underscore. -/
def isWordChar (c : Char) : Bool := c.isAlphanum || c = '_'

/-- The literal head of an opening marker. -/
def open12 : List Char := "<!-- MANUAL:".toList

/-- The literal head of a closing marker. -/
def close13 : List Char := "<!-- /MANUAL:".toList

/-- The literal tail of both markers. -/
def sp4 : List Char := " -->".toList

/-- The full opening marker `<!-- MANUAL:n -->`. -/
def openMark (n : List Char) : List Char := open12 ++ n ++ sp4

/-- The full closing marker `<!-- /MANUAL:n -->`. -/
def closeMark (n : List Char) : List Char := close13 ++ n ++ sp4

/-- Maximal leading run of word characters and the remainder. -/
def takeWord : List Char → List Char × List Char
  | [] => ([], [])
  | c :: cs =>
    if isWordChar c then
      let p := takeWord cs
      (c :: p.1, p.2)
    else ([], c :: cs)

/-- Match of `<!-- MANUAL:(\w+) -->` anchored at the start of `l`:
returns the captured name and the remainder after the marker. -/
def matchOpen (l : List Char) : Option (List Char × List Char) :=
  match dropStart? open12 l with
  | none => none
  | some r =>
    let p := takeWord r
    if p.1.isEmpty then none
    else
      match dropStart? sp4 p.2 with
      | none => none
      | some r3 => some (p.1, r3)

/-- `re.search(r'<!-- MANUAL:(\w+) -->', s)`: the name captured by the
leftmost match, scanning position by position. -/
def searchOpenName : List Char → Option (List Char)
  | [] => none
  | c :: cs =>
    match matchOpen (c :: cs) with
    | some p => some p.1
    | none => searchOpenName cs

/-- Fuelled scan of `re.findall(r'(<!-- MANUAL:(\w+) -->.*?<!-- /MANUAL:\2 -->)', html)`:
at each position try to match an opening marker and then extend
non-greedily to the first matching named closing marker; on success
record the whole block and resume after it, otherwise advance one
character.  One unit of fuel is spent per character consumed, so
`fuel = l.length` always suffices. -/
def extractAux : Nat → List Char → List (List Char)
  | 0, _ => []
  | _ + 1, [] => []
  | fuel + 1, c :: cs =>
    match matchOpen (c :: cs) with
    | some (nm, rest) =>
      match findSub (closeMark nm) rest with
      | some (body, rest2) =>
        (openMark nm ++ body ++ closeMark nm) :: extractAux fuel rest2
      | none => extractAux fuel cs
    | none => extractAux fuel cs

/-- `BioSiteClient._extract_manual_sections` (github_client.py 207-211). -/
def extractManualSections (html : List Char) : List (List Char) :=
  extractAux html.length html

/-- One piece of a parsed `re.sub` replacement template: a literal
character, or a reference to the whole match (`\g<0>`). -/
inductive TItem where
  | lit : Char → TItem
  | group0 : TItem
  deriving DecidableEq, Repr

/-- Parser for `\g<0...0>` after the `g`: accepts `<`, one or more `0`
digits and `>`; every other group reference is an error because the
placeholder pattern contains no groups. -/
def parseGroupZero : List Char → Option (List Char)
  | '<' :: '0' :: '>' :: r => some r
  | '<' :: '0' :: '0' :: rest => parseGroupZero ('<' :: '0' :: rest)
  | _ => none

/-- Octal digit test for `\0oo` escapes. -/
def isOctalDigit (c : Char) : Bool := '0' ≤ c && c ≤ '7'

/-- Value of an octal digit. -/
def octalVal (c : Char) : Nat := c.toNat - '0'.toNat

/-- Parse of a Python `re.sub` replacement template (CPython
`re._parser.parse_template`) specialised to a pattern with no capture
groups: `none` models the `re.error` raised on an invalid group
reference or a bad escape. -/
def expandTemplateAux : Nat → List Char → Option (List TItem)
  | 0, [] => some []
  | 0, _ :: _ => none
  | _ + 1, [] => some []
  | fuel + 1, c0 :: rest =>
    if c0 = '\\' then
      match rest with
      | [] => none
      | c :: rest2 =>
        if c = '\\' then (expandTemplateAux fuel rest2).map (TItem.lit '\\' :: ·)
        else if c = 'n' then (expandTemplateAux fuel rest2).map (TItem.lit '\n' :: ·)
        else if c = 't' then (expandTemplateAux fuel rest2).map (TItem.lit '\t' :: ·)
        else if c = 'r' then (expandTemplateAux fuel rest2).map (TItem.lit '\r' :: ·)
        else if c = 'a' then (expandTemplateAux fuel rest2).map (TItem.lit '\x07' :: ·)
        else if c = 'b' then (expandTemplateAux fuel rest2).map (TItem.lit '\x08' :: ·)
        else if c = 'f' then (expandTemplateAux fuel rest2).map (TItem.lit '\x0c' :: ·)
        else if c = 'v' then (expandTemplateAux fuel rest2).map (TItem.lit '\x0b' :: ·)
        else if c = '0' then
          match rest2 with
          | d1 :: rest3 =>
            if isOctalDigit d1 then
              match rest3 with
              | d2 :: rest4 =>
                if isOctalDigit d2 then
                  (expandTemplateAux fuel rest4).map
                    (TItem.lit (Char.ofNat (octalVal d1 * 8 + octalVal d2)) :: ·)
                else (expandTemplateAux fuel rest3).map (TItem.lit (Char.ofNat (octalVal d1)) :: ·)
              | [] => some [TItem.lit (Char.ofNat (octalVal d1))]
            else (expandTemplateAux fuel rest2).map (TItem.lit '\x00' :: ·)
          | [] => some [TItem.lit '\x00']
        else if '1' ≤ c ∧ c ≤ '9' then none
        else if c = 'g' then
          match parseGroupZero rest2 with
          | some rest3 => (expandTemplateAux fuel rest3).map (TItem.group0 :: ·)
          | none => none
        else if ('a' ≤ c ∧ c ≤ 'z') ∨ ('A' ≤ c ∧ c ≤ 'Z') then none
        else (expandTemplateAux fuel rest2).map (fun t => TItem.lit '\\' :: TItem.lit c :: t)
    else (expandTemplateAux fuel rest).map (TItem.lit c0 :: ·)

/-- Template parse with always-sufficient fuel. -/
def expandTemplate (l : List Char) : Option (List TItem) :=
  expandTemplateAux l.length l

/-- Instantiate a parsed template at a concrete matched text. -/
def applyTemplate (t : List TItem) (matched : List Char) : List Char :=
  match t with
  | [] => []
  | TItem.lit c :: rest => c :: applyTemplate rest matched
  | TItem.group0 :: rest => matched ++ applyTemplate rest matched

/-- Fuelled scan of
`re.sub(rf'<!-- MANUAL:{nm} -->.*?<!-- /MANUAL:{nm} -->', tmpl, l)`:
replace every non-overlapping leftmost block named `nm` by the
instantiated template.  `fuel = l.length` always suffices. -/
def substAux (nm : List Char) (t : List TItem) : Nat → List Char → List Char
  | 0, l => l
  | _ + 1, [] => []
  | fuel + 1, c :: cs =>
    match dropStart? (openMark nm) (c :: cs) with
    | some r =>
      match findSub (closeMark nm) r with
      | some (body, rest2) =>
        applyTemplate t (openMark nm ++ body ++ closeMark nm) ++ substAux nm t fuel rest2
      | none => c :: substAux nm t fuel cs
    | none => c :: substAux nm t fuel cs

/-- The single `re.sub` call of `_inject_manual_sections` for one
section, with its template already parsed. -/
def reSubManual (nm : List Char) (t : List TItem) (l : List Char) : List Char :=
  substAux nm t l.length l

/-- `WriterAgent._inject_manual_sections` (writer.py lines 202-228):
for each preserved section, find its name with `re.search` (skipping
the section when no marker is present), then substitute every matching
placeholder in the draft; `none` models the `re.error` raised by
`re.sub` on an invalid replacement template. -/
def injectManualSections (draft : List Char) : List (List Char) → Option (List Char)
  | [] => some draft
  | s :: rest =>
    match searchOpenName s with
    | none => injectManualSections draft rest
    | some nm =>
      match expandTemplate s with
      | none => none
      | some t => injectManualSections (reSubManual nm t draft) rest

/-! ## Auxiliary state and characterization helpers -/

/-- The `Collector` object's state as read during scoring: the scoring
config plus the `DRY_RUN`/`FORCE_UPDATE` environment flags stored on the
object (collector.py lines 41-42). -/
structure CollectorState where
  scoring : ScoringCfg
  dry_run : Bool
  force_update : Bool
  deriving DecidableEq, Repr

/-- `_calculate_significance` as a method of the collector state: it
reads only `self.config["scoring"]`. -/
def collectorSignificance (st : CollectorState) (commits : List Commit)
    (releases : List Release) (readme_changed : Bool) (is_new : Bool) : SigVerdict :=
  calculateSignificance st.scoring commits releases readme_changed is_new

/-- The weight the commit loop of `_calculate_significance` adds for one
commit (zero for docs/style/chore/perf/test/other). -/
def commitWeight (sc : ScoringCfg) (c : Commit) : Int :=
  if c.ctype = "feat" then sc.feat_commit
  else if c.ctype = "refactor" then sc.refactor_commit
  else if c.ctype = "fix" then sc.fix_commit
  else 0

/-- Total weight contributed by a commit list. -/
def commitsSum (sc : ScoringCfg) : List Commit → Int
  | [] => 0
  | c :: cs => commitWeight sc c + commitsSum sc cs

/-- The reason token of the first feat/refactor/fix commit in input
order — the commit-category reason the code actually records first. -/
def firstCommitReason : List Commit → Option String
  | [] => none
  | c :: cs =>
    if c.ctype = "feat" then some "feature_commit"
    else if c.ctype = "refactor" then some "refactor_commit"
    else if c.ctype = "fix" then some "fix_commit"
    else firstCommitReason cs

/-- `pat` occurs in `l` starting exactly at position `i`. -/
def StartsAt (pat l : List Char) (i : Nat) : Prop := ∃ r, l.drop i = pat ++ r

/-- No opening or closing manual-marker head occurs anywhere in `x`. -/
def markerFreeB (x : List Char) : Bool := !(occursB open12 x) && !(occursB close13 x)

/-! ## Gatekeeper claims -/

/-- C1: for every reviewed draft whose review status is not REJECT and
not ERROR, a stale freshness result forces the Gatekeeper decision to be
`pullRequest`, whatever the workflow mode, review status, and risk
percentage are. -/
theorem C1_stale_forces_pull_request (cfg : WorkflowCfg) (v : EditorVerdict)
    (h1 : v.status ≠ "REJECT") (h2 : v.status ≠ "ERROR") :
    (processVerdict cfg v true true).decision = Decision.pullRequest := by
  simp [processVerdict, h1, h2]

/-- Witness for C1 at a concrete input: mode `auto`, review `APPROVE`,
zero risk against a threshold of 30, stale. -/
theorem C1_stale_forces_pull_request_witness :
    ("APPROVE" ≠ "REJECT") ∧ ("APPROVE" ≠ "ERROR") ∧
      (processVerdict ⟨"auto", true, 30, false⟩ ⟨"APPROVE", none, some 0⟩ true true).decision
        = Decision.pullRequest :=
  ⟨by decide, by decide,
    C1_stale_forces_pull_request ⟨"auto", true, 30, false⟩ ⟨"APPROVE", none, some 0⟩
      (by decide) (by decide)⟩

/-- C5: a REJECT or ERROR review status makes the Gatekeeper skip the
draft, recording the review's reason (with the code's default when the
reason is missing), and neither the freshness check nor the risk check
runs and no remote mutation is performed. -/
theorem C5_reject_error_skips_without_checks (cfg : WorkflowCfg) (v : EditorVerdict)
    (stale draftExists : Bool) (h : v.status = "REJECT" ∨ v.status = "ERROR") :
    processVerdict cfg v stale draftExists =
      { decision := Decision.skip,
        skipReason := some (v.reason.getD "Rejected by Editor"),
        freshnessChecked := false, riskCheckConsulted := false, remoteOps := [] } := by
  simp [processVerdict, h]

/-- Witness for C5 at a concrete REJECT verdict. -/
theorem C5_reject_error_skips_without_checks_witness :
    (("REJECT" = "REJECT" ∨ ("REJECT" : String) = "ERROR")) ∧
      processVerdict ⟨"auto", true, 30, false⟩ ⟨"REJECT", some "policy violation", some 5⟩ true true =
        { decision := Decision.skip, skipReason := some "policy violation",
          freshnessChecked := false, riskCheckConsulted := false, remoteOps := [] } :=
  ⟨Or.inl rfl,
    C5_reject_error_skips_without_checks ⟨"auto", true, 30, false⟩
      ⟨"REJECT", some "policy violation", some 5⟩ true true (Or.inl rfl)⟩

/-- C9: neither the significance scorer nor the Gatekeeper's
pull-request-versus-direct-write decision reads the dry-run flag — their
outputs are identical under both dry-run values — while the
I/O-performing edges (`_create_pull_request`, `_direct_push`) suppress
all remote mutations under dry-run. -/
theorem C9_dry_run_independence :
    (∀ (st : CollectorState) (b : Bool) (commits : List Commit) (releases : List Release)
        (rc isnew : Bool),
      collectorSignificance { st with dry_run := b } commits releases rc isnew =
        collectorSignificance st commits releases rc isnew)
    ∧ (∀ (cfg : WorkflowCfg) (b : Bool) (status : String) (v : EditorVerdict),
      shouldCreatePr { cfg with dry_run := b } status v = shouldCreatePr cfg status v)
    ∧ (∀ (cfg : WorkflowCfg) (b : Bool) (v : EditorVerdict) (stale draftExists : Bool),
      (processVerdict { cfg with dry_run := b } v stale draftExists).decision =
        (processVerdict cfg v stale draftExists).decision)
    ∧ (∀ cfg : WorkflowCfg,
      createPullRequestOps { cfg with dry_run := true } = []
        ∧ directPushOps { cfg with dry_run := true } = []) := by
  refine ⟨fun _ _ _ _ _ _ => rfl, fun _ _ _ _ => rfl, ?_, fun _ => ⟨rfl, rfl⟩⟩
  intro cfg b v stale draftExists
  by_cases h : v.status = "REJECT" ∨ v.status = "ERROR" <;>
    cases draftExists <;> cases stale <;>
      by_cases hm : cfg.mode = "manual" <;>
        by_cases hf : v.status = "FLAGGED" <;>
          by_cases hr : cfg.force_pr_on_high_risk = true
              ∧ cfg.high_risk_threshold < v.change_percentage.getD 0 <;>
            simp [processVerdict, shouldCreatePr, h, hm, hf, hr]

/-! ## Collector summary claim -/

/-- Sum of the four mutually exclusive summary buckets. -/
theorem updateSummary_buckets (s : Summary) (p : ProjectData) :
    (updateSummary s p).lockedCount + (updateSummary s p).updates +
        (updateSummary s p).newCount + (updateSummary s p).skips =
      (s.lockedCount + s.updates + s.newCount + s.skips) + 1 := by
  unfold updateSummary
  by_cases h1 : p.locked = true <;> by_cases h2 : p.status = "update" <;>
    by_cases h3 : p.status = "new" <;> simp [h1, h2, h3] <;> omega

theorem foldl_updateSummary_buckets (ps : List ProjectData) : ∀ s : Summary,
    (ps.foldl updateSummary s).lockedCount + (ps.foldl updateSummary s).updates +
        (ps.foldl updateSummary s).newCount + (ps.foldl updateSummary s).skips =
      (s.lockedCount + s.updates + s.newCount + s.skips) + ps.length := by
  induction ps with
  | nil => intro s; simp
  | cons p ps ih =>
    intro s
    have h := updateSummary_buckets s p
    simp only [List.foldl_cons, List.length_cons]
    rw [ih (updateSummary s p)]
    omega

theorem foldl_updateSummary_total (ps : List ProjectData) : ∀ s : Summary,
    (ps.foldl updateSummary s).total = s.total := by
  induction ps with
  | nil => intro s; rfl
  | cons p ps ih =>
    intro s
    simp only [List.foldl_cons]
    rw [ih (updateSummary s p)]
    unfold updateSummary
    by_cases h1 : p.locked = true <;> by_cases h2 : p.status = "update" <;>
      by_cases h3 : p.status = "new" <;> simp [h1, h2, h3]

/-- C10: after a Collector run each processed project lands in exactly
one summary bucket, so locked + updates + new + skips equals the total
number of projects; a locked record (whose status is "skip") is counted
under locked, and a fetch-error record (status "error") under skips. -/
theorem C10_summary_partition :
    (∀ ps : List ProjectData,
      (runSummary ps).lockedCount + (runSummary ps).updates +
          (runSummary ps).newCount + (runSummary ps).skips = ps.length
        ∧ (runSummary ps).total = ps.length)
    ∧ (∀ s : Summary, updateSummary s lockedProjectData = { s with lockedCount := s.lockedCount + 1 })
    ∧ (∀ s : Summary, updateSummary s fetchErrorProjectData = { s with skips := s.skips + 1 }) := by
  refine ⟨fun ps => ⟨?_, ?_⟩, fun s => rfl, fun s => rfl⟩
  · have h := foldl_updateSummary_buckets ps
      { total := ps.length, updates := 0, skips := 0, newCount := 0, lockedCount := 0 }
    simpa [runSummary] using h
  · exact foldl_updateSummary_total ps _

/-! ## Editor deterministic-check claim -/

/-- C7: a draft that fails the deterministic HTML-structure validity
check is always rejected, whatever status (including APPROVE) the
generative reviewer returned. -/
theorem C7_invalid_html_forces_reject (policy : Policy) (verdict : ReviewVerdict)
    (draft : List Char) (h : isValidHtml draft = false) :
    (addDeterministicChecks policy verdict draft).status = "REJECT" := by
  simp [addDeterministicChecks, h]

/-- Witness for C7: the empty draft is invalid and an APPROVE verdict is
overturned to REJECT. -/
theorem C7_invalid_html_forces_reject_witness :
    isValidHtml [] = false ∧
      (addDeterministicChecks ⟨[], []⟩ ⟨"APPROVE", "looks fine", []⟩ []).status = "REJECT" :=
  ⟨by decide, C7_invalid_html_forces_reject ⟨[], []⟩ ⟨"APPROVE", "looks fine", []⟩ [] (by decide)⟩

/-! ## Significance scorer claims -/

/-- C6: a project with no existing published record always scores
`status = "new"` with the sentinel maximum 999, whatever the activity. -/
theorem C6_new_project_sentinel (sc : ScoringCfg) (commits : List Commit)
    (releases : List Release) (rc : Bool) :
    calculateSignificance sc commits releases rc true =
      { change_score := 999, status := "new", change_reason := "new_project" } := rfl

/-- One commit step adds exactly the commit's configured weight. -/
theorem scoreCommit_fst (sc : ScoringCfg) (acc : Int × List String) (c : Commit) :
    (scoreCommit sc acc c).1 = acc.1 + commitWeight sc c := by
  unfold scoreCommit commitWeight
  by_cases h1 : c.ctype = "feat" <;> by_cases h2 : c.ctype = "refactor" <;>
    by_cases h3 : c.ctype = "fix" <;> simp [h1, h2, h3]

/-- The commit loop adds exactly the summed weights. -/
theorem foldl_scoreCommit_fst (sc : ScoringCfg) (commits : List Commit) :
    ∀ (s : Int) (rs : List String),
      (commits.foldl (scoreCommit sc) (s, rs)).1 = s + commitsSum sc commits := by
  induction commits with
  | nil => intro s rs; simp [commitsSum]
  | cons c cs ih =>
    intro s rs
    simp only [List.foldl_cons, commitsSum]
    have hp : scoreCommit sc (s, rs) c = ((scoreCommit sc (s, rs) c).1, (scoreCommit sc (s, rs) c).2) := rfl
    rw [hp, ih, scoreCommit_fst]
    omega

/-- One commit step only ever appends to the reasons list. -/
theorem scoreCommit_snd_extend (sc : ScoringCfg) (acc : Int × List String) (c : Commit) :
    ∃ ext, (scoreCommit sc acc c).2 = acc.2 ++ ext := by
  by_cases h1 : c.ctype = "feat"
  · by_cases hm : "feature_commit" ∈ acc.2
    · exact ⟨[], by simp [scoreCommit, h1, hm]⟩
    · exact ⟨["feature_commit"], by simp [scoreCommit, h1, hm]⟩
  · by_cases h2 : c.ctype = "refactor"
    · by_cases hm : "refactor_commit" ∈ acc.2
      · exact ⟨[], by simp [scoreCommit, h1, h2, hm]⟩
      · exact ⟨["refactor_commit"], by simp [scoreCommit, h1, h2, hm]⟩
    · by_cases h3 : c.ctype = "fix"
      · by_cases hm : "fix_commit" ∈ acc.2
        · exact ⟨[], by simp [scoreCommit, h1, h2, h3, hm]⟩
        · exact ⟨["fix_commit"], by simp [scoreCommit, h1, h2, h3, hm]⟩
      · exact ⟨[], by simp [scoreCommit, h1, h2, h3]⟩

/-- The commit loop only ever appends to the reasons list. -/
theorem foldl_scoreCommit_snd_extend (sc : ScoringCfg) (commits : List Commit) :
    ∀ (s : Int) (rs : List String),
      ∃ ext, (commits.foldl (scoreCommit sc) (s, rs)).2 = rs ++ ext := by
  induction commits with
  | nil => intro s rs; exact ⟨[], by simp⟩
  | cons c cs ih =>
    intro s rs
    simp only [List.foldl_cons]
    obtain ⟨e1, he1⟩ := scoreCommit_snd_extend sc (s, rs) c
    have hp : scoreCommit sc (s, rs) c = ((scoreCommit sc (s, rs) c).1, (scoreCommit sc (s, rs) c).2) := rfl
    rw [hp]
    obtain ⟨e2, he2⟩ := ih (scoreCommit sc (s, rs) c).1 (scoreCommit sc (s, rs) c).2
    exact ⟨e1 ++ e2, by rw [he2, he1, List.append_assoc]⟩

theorem head?_append_of_ne_nil {α : Type} {rs ext : List α} (h : rs ≠ []) :
    (rs ++ ext).head? = rs.head? := by
  cases rs with
  | nil => exact absurd rfl h
  | cons x xs => rfl

/-- When the reasons list is already nonempty, the commit loop cannot
change its head. -/
theorem foldl_scoreCommit_head? (sc : ScoringCfg) (commits : List Commit)
    (s : Int) (rs : List String) (h : rs ≠ []) :
    ((commits.foldl (scoreCommit sc) (s, rs)).2).head? = rs.head? := by
  obtain ⟨ext, hext⟩ := foldl_scoreCommit_snd_extend sc commits s rs
  rw [hext, head?_append_of_ne_nil h]

/-- Starting from an empty reasons list, the head of the final reasons
list is the reason of the first feat/refactor/fix commit in input
order. -/
theorem foldl_scoreCommit_first_reason (sc : ScoringCfg) (commits : List Commit) :
    ∀ s : Int,
      ((commits.foldl (scoreCommit sc) (s, ([] : List String))).2).head? =
        firstCommitReason commits := by
  induction commits with
  | nil => intro s; rfl
  | cons c cs ih =>
    intro s
    simp only [List.foldl_cons, firstCommitReason]
    by_cases h1 : c.ctype = "feat"
    · rw [show scoreCommit sc (s, []) c = (s + sc.feat_commit, ["feature_commit"]) by
        simp [scoreCommit, h1]]
      rw [foldl_scoreCommit_head? sc cs _ _ (by simp)]
      simp [h1]
    · by_cases h2 : c.ctype = "refactor"
      · rw [show scoreCommit sc (s, []) c = (s + sc.refactor_commit, ["refactor_commit"]) by
          simp [scoreCommit, h1, h2]]
        rw [foldl_scoreCommit_head? sc cs _ _ (by simp)]
        simp [h1, h2]
      · by_cases h3 : c.ctype = "fix"
        · rw [show scoreCommit sc (s, []) c = (s + sc.fix_commit, ["fix_commit"]) by
            simp [scoreCommit, h1, h2, h3]]
          rw [foldl_scoreCommit_head? sc cs _ _ (by simp)]
          simp [h1, h2, h3]
        · rw [show scoreCommit sc (s, []) c = (s, []) by simp [scoreCommit, h1, h2, h3]]
          rw [ih s]
          simp [h1, h2, h3]

/-- C3 counterexample: an already-published project whose commit list is
`[fix, feat]` (both categories carrying their nonzero default weights,
no release, README unchanged) gets reason `fix_commit` — the category of
the *first commit in input order* — whereas the claim's priority order
feat → refactor → fix demands `feature_commit`. -/
theorem C3_counterexample_commit_order :
    (calculateSignificance ⟨100, 40, 30, 30, 15, -999, 50⟩
        [⟨"fix"⟩, ⟨"feat"⟩] [] false false).change_reason = "fix_commit"
    ∧ ("fix_commit" : String) ≠ "feature_commit"
    ∧ (⟨100, 40, 30, 30, 15, -999, 50⟩ : ScoringCfg).feat_commit ≠ 0
    ∧ (⟨100, 40, 30, 30, 15, -999, 50⟩ : ScoringCfg).fix_commit ≠ 0 := by
  refine ⟨by decide, by decide, by decide, by decide⟩

/-- C3 (amended): for an already-published project with activity, the
verdict's reason is the first category recorded in the code's evaluation
order — release first, then readme-changed, then the category of the
first feat/refactor/fix commit *in input order* (a category is recorded
regardless of its configured weight). -/
theorem C3_amended_reason_evaluation_order (sc : ScoringCfg) (commits : List Commit)
    (releases : List Release) (rc : Bool) (h : commits ≠ [] ∨ releases ≠ []) :
    (calculateSignificance sc commits releases rc false).change_reason =
      if releases.isEmpty = false then "release_tag"
      else if rc then "readme_changed"
      else (firstCommitReason commits).getD "low_significance" := by
  have hne : (commits.isEmpty && releases.isEmpty) = false := by
    rcases h with h | h <;> simp [List.isEmpty_iff, h]
  unfold calculateSignificance
  by_cases hrel : releases.isEmpty
  · have hrele : releases = [] := List.isEmpty_iff.mp hrel
    have hc : commits ≠ [] := by
      rcases h with h | h
      · exact h
      · exact absurd hrele h
    by_cases hrc : rc
    · simp [hne, hrel, hrc, hc]
      rw [foldl_scoreCommit_head? sc commits _ _ (by simp)]
      rfl
    · simp [hne, hrel, hrc, hc]
      rw [foldl_scoreCommit_first_reason sc commits]
  · by_cases hrc : rc
    · simp [hne, hrel, hrc]
      rw [foldl_scoreCommit_head? sc commits _ _ (by simp)]
      rfl
    · simp [hne, hrel, hrc]
      rw [foldl_scoreCommit_head? sc commits _ _ (by simp)]
      rfl

/-- Witness for C3 (amended) at the counterexample's input. -/
theorem C3_amended_reason_evaluation_order_witness :
    (([⟨"fix"⟩, ⟨"feat"⟩] : List Commit) ≠ [] ∨ ([] : List Release) ≠ [])
    ∧ (calculateSignificance ⟨100, 40, 30, 30, 15, -999, 50⟩
        [⟨"fix"⟩, ⟨"feat"⟩] [] false false).change_reason =
      (if ([] : List Release).isEmpty = false then "release_tag"
       else if false then "readme_changed"
       else (firstCommitReason [⟨"fix"⟩, ⟨"feat"⟩]).getD "low_significance") :=
  ⟨Or.inl (by decide),
    C3_amended_reason_evaluation_order ⟨100, 40, 30, 30, 15, -999, 50⟩
      [⟨"fix"⟩, ⟨"feat"⟩] [] false (Or.inl (by decide))⟩

/-- Each commit category's weight is nonnegative when the three commit
weights are. -/
theorem commitWeight_nonneg (sc : ScoringCfg) (h3 : 0 ≤ sc.feat_commit)
    (h4 : 0 ≤ sc.refactor_commit) (h5 : 0 ≤ sc.fix_commit) (c : Commit) :
    0 ≤ commitWeight sc c := by
  unfold commitWeight
  by_cases a : c.ctype = "feat"
  · simp [a]; exact h3
  · by_cases b : c.ctype = "refactor"
    · simp [a, b]; exact h4
    · by_cases d : c.ctype = "fix"
      · simp [a, b, d]; exact h5
      · simp [a, b, d]

theorem commitsSum_nonneg (sc : ScoringCfg) (h3 : 0 ≤ sc.feat_commit)
    (h4 : 0 ≤ sc.refactor_commit) (h5 : 0 ≤ sc.fix_commit) (commits : List Commit) :
    0 ≤ commitsSum sc commits := by
  induction commits with
  | nil => simp [commitsSum]
  | cons c cs ih =>
    have := commitWeight_nonneg sc h3 h4 h5 c
    simp only [commitsSum]
    omega

/-- Closed form of the accumulated score in the active branch of
`_calculate_significance`. -/
theorem significance_score_char (sc : ScoringCfg) (commits : List Commit)
    (releases : List Release) (rc : Bool)
    (h : (commits.isEmpty && releases.isEmpty) = false) :
    (calculateSignificance sc commits releases rc false).change_score =
      (if releases.isEmpty then 0 else sc.new_release) +
        (if rc then sc.readme_changed else 0) + commitsSum sc commits := by
  unfold calculateSignificance
  by_cases hrel : releases.isEmpty
  · have hc : commits ≠ [] := by
      intro hC
      rw [hC] at h
      simp [hrel] at h
    by_cases hrc : rc <;> simp [hrel, hrc, hc] <;> rw [foldl_scoreCommit_fst] <;> omega
  · by_cases hrc : rc <;> simp [h, hrel, hrc] <;> rw [foldl_scoreCommit_fst] <;> omega

/-- Score of the no-activity short-circuit. -/
theorem significance_score_empty (sc : ScoringCfg) (rc : Bool) :
    (calculateSignificance sc [] [] rc false).change_score = sc.no_commits := rfl

/-- C8: for an already-published project, with the configured bonus
weights nonnegative and the no-activity sentinel nonpositive (the spec
fixes it as a negative sentinel), adding one release, setting the
README-changed flag, or adding one commit of a nonzero-weight category
can only increase or preserve the significance score. -/
theorem C8_score_monotonic (sc : ScoringCfg)
    (h1 : 0 ≤ sc.new_release) (h2 : 0 ≤ sc.readme_changed) (h3 : 0 ≤ sc.feat_commit)
    (h4 : 0 ≤ sc.refactor_commit) (h5 : 0 ≤ sc.fix_commit) (h6 : sc.no_commits ≤ 0) :
    (∀ (commits : List Commit) (releases : List Release) (rc : Bool) (rel : Release),
      (calculateSignificance sc commits releases rc false).change_score ≤
        (calculateSignificance sc commits (rel :: releases) rc false).change_score)
    ∧ (∀ (commits : List Commit) (releases : List Release),
      (calculateSignificance sc commits releases false false).change_score ≤
        (calculateSignificance sc commits releases true false).change_score)
    ∧ (∀ (commits : List Commit) (releases : List Release) (rc : Bool) (c : Commit),
      commitWeight sc c ≠ 0 →
      (calculateSignificance sc commits releases rc false).change_score ≤
        (calculateSignificance sc (c :: commits) releases rc false).change_score) := by
  have hsum := commitsSum_nonneg sc h3 h4 h5
  have hw := commitWeight_nonneg sc h3 h4 h5
  refine ⟨?_, ?_, ?_⟩
  · intro commits releases rc rel
    by_cases hb : (commits.isEmpty && releases.isEmpty) = true
    · rw [Bool.and_eq_true] at hb
      have hc : commits = [] := List.isEmpty_iff.mp hb.1
      have hr : releases = [] := List.isEmpty_iff.mp hb.2
      subst hc; subst hr
      rw [significance_score_empty,
        significance_score_char sc [] [rel] rc (by simp)]
      by_cases hrc : rc <;> simp [hrc, commitsSum] <;> omega
    · have hb' : (commits.isEmpty && releases.isEmpty) = false := by
        cases hx : (commits.isEmpty && releases.isEmpty) <;> simp_all
      rw [significance_score_char sc commits releases rc hb',
        significance_score_char sc commits (rel :: releases) rc (by simp)]
      have := hsum commits
      by_cases hrel : releases.isEmpty <;> by_cases hrc : rc <;>
        simp [hrel, hrc] <;> omega
  · intro commits releases
    by_cases hb : (commits.isEmpty && releases.isEmpty) = true
    · rw [Bool.and_eq_true] at hb
      have hc : commits = [] := List.isEmpty_iff.mp hb.1
      have hr : releases = [] := List.isEmpty_iff.mp hb.2
      subst hc; subst hr
      rw [significance_score_empty, significance_score_empty]
    · have hb' : (commits.isEmpty && releases.isEmpty) = false := by
        cases hx : (commits.isEmpty && releases.isEmpty) <;> simp_all
      rw [significance_score_char sc commits releases false hb',
        significance_score_char sc commits releases true hb']
      by_cases hrel : releases.isEmpty <;> simp [hrel] <;> omega
  · intro commits releases rc c _
    by_cases hb : (commits.isEmpty && releases.isEmpty) = true
    · rw [Bool.and_eq_true] at hb
      have hc : commits = [] := List.isEmpty_iff.mp hb.1
      have hr : releases = [] := List.isEmpty_iff.mp hb.2
      subst hc; subst hr
      rw [significance_score_empty,
        significance_score_char sc [c] [] rc (by simp)]
      have := hw c
      by_cases hrc : rc <;> simp [hrc, commitsSum] <;> omega
    · have hb' : (commits.isEmpty && releases.isEmpty) = false := by
        cases hx : (commits.isEmpty && releases.isEmpty) <;> simp_all
      rw [significance_score_char sc commits releases rc hb',
        significance_score_char sc (c :: commits) releases rc (by
          simp only [List.isEmpty_cons, Bool.false_and])]
      have := hw c
      simp only [commitsSum]
      by_cases hrel : releases.isEmpty <;> by_cases hrc : rc <;>
        simp [hrel, hrc] <;> omega

/-- Witness for C8 at the default configuration. -/
theorem C8_score_monotonic_witness :
    (0 ≤ (100 : Int) ∧ 0 ≤ (40 : Int) ∧ 0 ≤ (30 : Int) ∧ 0 ≤ (15 : Int) ∧ (-999 : Int) ≤ 0) ∧
      (calculateSignificance ⟨100, 40, 30, 30, 15, -999, 50⟩ [] [] false false).change_score ≤
        (calculateSignificance ⟨100, 40, 30, 30, 15, -999, 50⟩ [] [⟨"v1"⟩] false false).change_score :=
  ⟨⟨by decide, by decide, by decide, by decide, by decide⟩,
    (C8_score_monotonic ⟨100, 40, 30, 30, 15, -999, 50⟩ (by decide) (by decide) (by decide)
      (by decide) (by decide) (by decide)).1 [] [] false ⟨"v1"⟩⟩

/-! ## Freshness-guard claim -/

/-- C4 counterexample: a snapshot that records the artifact as existing
with *empty* recorded content.  The Python truthiness test
`if project.get("current_html")` skips the fingerprint computation for
the empty string, so even though the remote content `"x"` has a
different fingerprint from the snapshot content `""`, the check reports
`stale = false` — the claim demands `stale = true` whenever the
fingerprints differ. -/
theorem C4_counterexample_empty_snapshot_content :
    checkFreshness (fun s => s) (some [⟨"p", true, some ""⟩]) "p" (some ⟨"sha1", "x"⟩) =
      { stale := false, expected_sha := none, current_sha := some "sha1" }
    ∧ ((fun s : String => s) "x") ≠ ((fun s : String => s) "") :=
  ⟨by decide, by decide⟩

/-- C4 (amended): for a snapshot that records an existing artifact with
*nonempty* content, the freshness check is stale exactly when the remote
artifact is absent or its content fingerprint differs from the
snapshot's; with empty or missing recorded content only remote absence
is stale; with no existing record (or no snapshot at all) the check
never reports stale. -/
theorem C4_amended_freshness_characterization :
    (∀ (fp : String → String) (ps : List CtxProject) (slug : String) (p : CtxProject)
        (s : String) (remote : Option RemoteFile),
      ps.find? (fun q => q.slug == slug) = some p → p.existsFlag = true →
      p.current_html = some s → s ≠ "" →
      ((checkFreshness fp (some ps) slug remote).stale = true ↔
        remote = none ∨ ∃ rf, remote = some rf ∧ fp rf.content ≠ fp s))
    ∧ (∀ (fp : String → String) (ps : List CtxProject) (slug : String) (p : CtxProject)
        (remote : Option RemoteFile),
      ps.find? (fun q => q.slug == slug) = some p → p.existsFlag = true →
      (p.current_html = none ∨ p.current_html = some "") →
      ((checkFreshness fp (some ps) slug remote).stale = true ↔ remote = none))
    ∧ (∀ (fp : String → String) (ps : List CtxProject) (slug : String)
        (remote : Option RemoteFile),
      ps.find? (fun q => q.slug == slug) = none →
      checkFreshness fp (some ps) slug remote = ⟨false, none, none⟩)
    ∧ (∀ (fp : String → String) (ps : List CtxProject) (slug : String) (p : CtxProject)
        (remote : Option RemoteFile),
      ps.find? (fun q => q.slug == slug) = some p → p.existsFlag = false →
      checkFreshness fp (some ps) slug remote = ⟨false, none, none⟩)
    ∧ (∀ (fp : String → String) (slug : String) (remote : Option RemoteFile),
      checkFreshness fp none slug remote = ⟨false, none, none⟩) := by
  refine ⟨?_, ?_, ?_, ?_, fun _ _ _ => rfl⟩
  · intro fp ps slug p s remote hfind hex hch hs
    cases remote with
    | some rf => simp [checkFreshness, hfind, hex, hch, hs]
    | none => simp [checkFreshness, hfind, hex, hch, hs]
  · intro fp ps slug p remote hfind hex hch
    rcases hch with hch | hch <;> cases remote with
    | some rf => simp [checkFreshness, hfind, hex, hch]
    | none => simp [checkFreshness, hfind, hex, hch]
  · intro fp ps slug remote hfind
    simp [checkFreshness, hfind]
  · intro fp ps slug p remote hfind hex
    simp [checkFreshness, hfind, hex]

/-- Witness for C4 (amended): nonempty snapshot content `"old"`,
remote content `"new"` present — the characterization applies. -/
theorem C4_amended_freshness_characterization_witness :
    ((checkFreshness (fun s => s) (some [⟨"p", true, some "old"⟩]) "p"
        (some ⟨"sha1", "new"⟩)).stale = true ↔
      (some ⟨"sha1", "new"⟩ : Option RemoteFile) = none ∨
        ∃ rf, (some ⟨"sha1", "new"⟩ : Option RemoteFile) = some rf ∧
          (fun s : String => s) rf.content ≠ (fun s : String => s) "old") :=
  (C4_amended_freshness_characterization).1 (fun s => s) [⟨"p", true, some "old"⟩] "p"
    ⟨"p", true, some "old"⟩ "old" (some ⟨"sha1", "new"⟩) (by decide) rfl rfl (by decide)

/-! ## Manual-section preserver: scanning lemmas -/

theorem dropStart?_eq_some {p : List Char} : ∀ {l r : List Char},
    dropStart? p l = some r ↔ l = p ++ r := by
  induction p with
  | nil => intro l r; simp [dropStart?]
  | cons x p ih =>
    intro l r
    cases l with
    | nil => simp [dropStart?]
    | cons c cs =>
      by_cases hx : x = c
      · subst hx
        simp [dropStart?, ih]
      · simp only [dropStart?, if_neg hx]
        constructor
        · intro h; exact absurd h (by simp)
        · intro h
          injection h with h1 _
          exact absurd h1.symm hx

theorem dropStart?_self (p r : List Char) : dropStart? p (p ++ r) = some r :=
  dropStart?_eq_some.mpr rfl

theorem findSub_eq {pat : List Char} : ∀ {l b a : List Char},
    findSub pat l = some (b, a) → l = b ++ pat ++ a := by
  intro l
  induction l with
  | nil =>
    intro b a h
    unfold findSub at h
    cases hd : dropStart? pat [] with
    | none => rw [hd] at h; exact absurd h (by simp)
    | some r =>
      rw [hd] at h
      injection h with h'
      injection h' with hb ha
      subst hb; subst ha
      have := dropStart?_eq_some.mp hd
      simp [← this]
  | cons c cs ih =>
    intro b a h
    unfold findSub at h
    cases hd : dropStart? pat (c :: cs) with
    | some r =>
      rw [hd] at h
      injection h with h'
      injection h' with hb ha
      subst hb; subst ha
      simpa using dropStart?_eq_some.mp hd
    | none =>
      rw [hd] at h
      cases hf : findSub pat cs with
      | none => rw [hf] at h; exact absurd h (by simp)
      | some pa =>
        rw [hf] at h
        obtain ⟨b', a'⟩ := pa
        injection h with h'
        injection h' with hb ha
        subst hb; subst ha
        have := ih hf
        simp [this]

theorem findSub_isSome_of_occurs {pat l : List Char} (h : OccursIn pat l) :
    (findSub pat l).isSome := by
  obtain ⟨u, v, rfl⟩ := h
  induction u with
  | nil =>
    cases hpv : pat ++ v with
    | nil =>
      have hp : pat = [] := by
        cases pat with
        | nil => rfl
        | cons x xs => simp at hpv
      subst hp
      have hv : v = [] := by simpa using hpv
      subst hv
      simp [findSub, dropStart?]
    | cons c cs =>
      simp only [List.nil_append]
      rw [hpv]
      unfold findSub
      cases hd : dropStart? pat (c :: cs) with
      | none =>
        rw [← hpv, dropStart?_self] at hd
        exact absurd hd (by simp)
      | some r => simp
  | cons c u ih =>
    show (findSub pat (c :: (u ++ pat ++ v))).isSome
    unfold findSub
    cases hd : dropStart? pat (c :: (u ++ pat ++ v)) with
    | some r => simp
    | none =>
      cases hf : findSub pat (u ++ pat ++ v) with
      | none =>
        rw [hf] at ih
        exact absurd ih (by simp)
      | some pa => simp

theorem occursB_false_iff {pat l : List Char} :
    occursB pat l = false ↔ ¬ OccursIn pat l := by
  constructor
  · intro h hocc
    have hs := findSub_isSome_of_occurs hocc
    unfold occursB at h
    rw [h] at hs
    exact absurd hs (by simp)
  · intro h
    cases hf : findSub pat l with
    | none => simp [occursB, hf]
    | some pa =>
      obtain ⟨b, a⟩ := pa
      exact absurd ⟨b, a, findSub_eq hf⟩ h

theorem startsAt_occurs {pat l : List Char} {i : Nat} (h : StartsAt pat l i)
    (hne : pat ≠ []) : OccursIn pat l := by
  obtain ⟨r, hr⟩ := h
  by_cases hi : i ≤ l.length
  · refine ⟨l.take i, r, ?_⟩
    conv_lhs => rw [← List.take_append_drop i l]
    rw [hr, List.append_assoc]
  · exfalso
    have hd : l.drop i = [] := List.drop_eq_nil_of_le (by omega)
    rw [hd] at hr
    cases pat with
    | nil => exact hne rfl
    | cons x xs => simp at hr

theorem occurs_of_occurs_append {hd tl pat x : List Char} (hpat : pat = hd ++ tl)
    (h : OccursIn pat x) : OccursIn hd x := by
  obtain ⟨u, v, rfl⟩ := h
  exact ⟨u, tl ++ v, by simp [hpat]⟩

theorem startsAt_shift {pat z : List Char} (a : List Char) {j : Nat}
    (h : StartsAt pat z j) : StartsAt pat (a ++ z) (a.length + j) := by
  obtain ⟨r, hr⟩ := h
  exact ⟨r, by rw [List.drop_append, hr]⟩

theorem startsAt_unshift {pat a z : List Char} {j : Nat}
    (h : StartsAt pat (a ++ z) (a.length + j)) : StartsAt pat z j := by
  obtain ⟨r, hr⟩ := h
  rw [List.drop_append] at hr
  exact ⟨r, hr⟩

theorem startsAt_head {pat z : List Char} (h : StartsAt pat z 0) (hne : pat ≠ []) :
    z.head? = pat.head? := by
  obtain ⟨r, hr⟩ := h
  rw [List.drop_zero] at hr
  rw [hr]
  exact head?_append_of_ne_nil hne

theorem startsAt_left_occurs {pat a z : List Char} {i : Nat}
    (h : StartsAt pat (a ++ z) i) (h2 : i + pat.length ≤ a.length) : OccursIn pat a := by
  obtain ⟨r, hr⟩ := h
  have hia : i ≤ a.length := by omega
  rw [List.drop_append_of_le_length hia] at hr
  rcases List.append_eq_append_iff.mp hr.symm with ⟨a', ha1, _⟩ | ⟨c', hc1, hc2⟩
  · refine ⟨a.take i, a', ?_⟩
    conv_lhs => rw [← List.take_append_drop i a]
    rw [ha1, List.append_assoc]
  · have hlen0 : c'.length = 0 := by
      have h1 := congrArg List.length hc1
      simp [List.length_drop] at h1
      omega
    have hlen : c' = [] := List.eq_nil_of_length_eq_zero hlen0
    subst hlen
    refine ⟨a.take i, [], ?_⟩
    conv_lhs => rw [← List.take_append_drop i a]
    rw [hc1]
    simp

theorem startsAt_span {pat a z : List Char} {i : Nat}
    (h : StartsAt pat (a ++ z) i) (hi : i < a.length) (hlen : a.length < i + pat.length) :
    0 < a.length - i ∧ a.length - i < pat.length ∧
      StartsAt (pat.drop (a.length - i)) z 0 := by
  obtain ⟨r, hr⟩ := h
  have hia : i ≤ a.length := by omega
  rw [List.drop_append_of_le_length hia] at hr
  rcases List.append_eq_append_iff.mp hr.symm with ⟨a', ha1, _⟩ | ⟨c', hc1, hc2⟩
  · exfalso
    have h1 := congrArg List.length ha1
    rw [List.length_drop] at h1
    simp at h1
    omega
  · have hc' : c' = pat.drop (a.length - i) := by
      have : pat.drop ((a.drop i).length) = c' := by
        rw [hc1, List.drop_left]
      rw [List.length_drop] at this
      exact this.symm
    refine ⟨by omega, by omega, ?_⟩
    exact ⟨r, by rw [List.drop_zero, hc2, hc']⟩

theorem head?_mem_drop_one {l : List Char} {k : Nat} {c : Char} (hk : 0 < k)
    (h : (l.drop k).head? = some c) : c ∈ l.drop 1 := by
  have heq : l.drop k = (l.drop 1).drop (k - 1) := by
    rw [List.drop_drop]
    congr 1
    omega
  rw [heq] at h
  have h2 : c ∈ (l.drop 1).drop (k - 1) := by
    cases hx : (l.drop 1).drop (k - 1) with
    | nil => rw [hx] at h; simp at h
    | cons y ys =>
      rw [hx] at h
      simp at h
      subst h
      exact List.mem_cons_self y ys
  exact List.drop_subset _ _ h2

theorem isWordChar_ne_lt {c : Char} (h : isWordChar c = true) : c ≠ '<' := by
  intro hc
  subst hc
  exact absurd h (by decide)

theorem open12_cons : open12 = '<' :: "!-- MANUAL:".toList := by decide

theorem close13_cons : close13 = '<' :: "!-- /MANUAL:".toList := by decide

theorem openMark_cons (n : List Char) :
    openMark n = '<' :: ("!-- MANUAL:".toList ++ n ++ sp4) := by
  rw [openMark, open12_cons]
  simp

theorem closeMark_cons (n : List Char) :
    closeMark n = '<' :: ("!-- /MANUAL:".toList ++ n ++ sp4) := by
  rw [closeMark, close13_cons]
  simp

theorem openMark_ne_nil (n : List Char) : openMark n ≠ [] := by
  rw [openMark_cons]; simp

theorem closeMark_ne_nil (n : List Char) : closeMark n ≠ [] := by
  rw [closeMark_cons]; simp

theorem openMark_head? (n : List Char) : (openMark n).head? = some '<' := by
  rw [openMark_cons]; rfl

theorem closeMark_head? (n : List Char) : (closeMark n).head? = some '<' := by
  rw [closeMark_cons]; rfl

theorem openMark_tail_no_lt {n : List Char} (hnw : n.all isWordChar = true) :
    '<' ∉ (openMark n).drop 1 := by
  rw [openMark_cons]
  intro hmem
  simp only [List.drop_succ_cons, List.drop_zero] at hmem
  rcases List.mem_append.mp hmem with hmem' | h3
  · rcases List.mem_append.mp hmem' with h1 | h2
    · exact absurd h1 (by decide)
    · exact isWordChar_ne_lt (List.all_eq_true.mp hnw _ h2) rfl
  · exact absurd h3 (by decide)

theorem closeMark_tail_no_lt {n : List Char} (hnw : n.all isWordChar = true) :
    '<' ∉ (closeMark n).drop 1 := by
  rw [closeMark_cons]
  intro hmem
  simp only [List.drop_succ_cons, List.drop_zero] at hmem
  rcases List.mem_append.mp hmem with hmem' | h3
  · rcases List.mem_append.mp hmem' with h1 | h2
    · exact absurd h1 (by decide)
    · exact isWordChar_ne_lt (List.all_eq_true.mp hnw _ h2) rfl
  · exact absurd h3 (by decide)

/-- A match of `pat` cannot start strictly inside `a` when `pat` opens
with the marker head `hd`, `hd` does not occur in `a`, every character
of `pat` after the first is distinct from `<`, and `z` begins with `<`. -/
theorem no_startsAt_left {pat hd a z : List Char} {i : Nat}
    (hpat : ∃ t, pat = hd ++ t)
    (hfree : ¬ OccursIn hd a)
    (hlt : '<' ∉ pat.drop 1) (hzh : z.head? = some '<') (hpne : pat ≠ [])
    (hi : i < a.length) : ¬ StartsAt pat (a ++ z) i := by
  intro h
  by_cases hcase : i + pat.length ≤ a.length
  · obtain ⟨t, hpt⟩ := hpat
    exact hfree (occurs_of_occurs_append hpt (startsAt_left_occurs h hcase))
  · obtain ⟨h1, h2, h3⟩ := startsAt_span h hi (by omega)
    have hkne : pat.drop (a.length - i) ≠ [] := by
      intro hx
      have hlx := congrArg List.length hx
      rw [List.length_drop] at hlx
      simp at hlx
      omega
    have hh := startsAt_head h3 hkne
    rw [hzh] at hh
    exact hlt (head?_mem_drop_one h1 hh.symm)

/-- An opening marker for `m` cannot start where a closing marker
stands: the two marker heads differ at their sixth character. -/
theorem openMark_not_at_closeMark {m n y : List Char} :
    ¬ StartsAt (openMark m) (closeMark n ++ y) 0 := by
  rintro ⟨r, hr⟩
  rw [List.drop_zero] at hr
  have hL : closeMark n ++ y = close13 ++ ((n ++ sp4) ++ y) := by
    simp [closeMark]
  have hR : openMark m ++ r = open12 ++ ((m ++ sp4) ++ r) := by
    simp [openMark]
  have h6 : (closeMark n ++ y).take 6 = (openMark m ++ r).take 6 := by rw [hr]
  rw [hL, hR, List.take_append_of_le_length (by decide),
    List.take_append_of_le_length (by decide)] at h6
  exact absurd h6 (by decide)

/-- Two word-character runs followed by the literal marker tail are
equal when the surrounding texts agree. -/
theorem word_run_eq : ∀ (n m y r : List Char), n.all isWordChar = true →
    m.all isWordChar = true → n ++ sp4 ++ y = m ++ sp4 ++ r → n = m := by
  intro n
  induction n with
  | nil =>
    intro m y r _ hm heq
    cases m with
    | nil => rfl
    | cons b m' =>
      exfalso
      have hb : isWordChar b = true := (List.all_eq_true.mp hm) b (List.mem_cons_self b m')
      have : (' ' : Char) = b := by
        have := congrArg List.head? heq
        simp [sp4] at this
        exact this
      rw [← this] at hb
      exact absurd hb (by decide)
  | cons a n' ih =>
    intro m y r hn hm heq
    cases m with
    | nil =>
      exfalso
      have ha : isWordChar a = true := (List.all_eq_true.mp hn) a (List.mem_cons_self a n')
      have : (a : Char) = ' ' := by
        have := congrArg List.head? heq
        simp [sp4] at this
        exact this
      rw [this] at ha
      exact absurd ha (by decide)
    | cons b m' =>
      have hab : a = b ∧ n' ++ sp4 ++ y = m' ++ sp4 ++ r := by
        constructor
        · have := congrArg List.head? heq
          simpa using this
        · have := congrArg List.tail heq
          simpa using this
      rw [hab.1, ih m' y r (by simp at hn; exact (List.all_eq_true.mpr (by
        intro x hx
        exact (List.all_eq_true.mp (by simpa using hn.2 : n'.all isWordChar = true)) x hx)))
        (by simp at hm; exact (List.all_eq_true.mpr (by
          intro x hx
          exact (List.all_eq_true.mp (by simpa using hm.2 : m'.all isWordChar = true)) x hx)))
        hab.2]

/-- A full opening marker aligned with another opening marker forces the
names to coincide. -/
theorem openMark_aligned_names {m n y : List Char}
    (hm : m.all isWordChar = true) (hn : n.all isWordChar = true)
    (h : StartsAt (openMark m) (openMark n ++ y) 0) : m = n := by
  obtain ⟨r, hr⟩ := h
  rw [List.drop_zero] at hr
  have hL : openMark n ++ y = open12 ++ (n ++ sp4 ++ y) := by simp [openMark]
  have hR : openMark m ++ r = open12 ++ (m ++ sp4 ++ r) := by simp [openMark]
  rw [hL, hR] at hr
  exact (word_run_eq n m y r hn hm (List.append_cancel_left hr)).symm

theorem markerFree_open {x : List Char} (h : markerFreeB x = true) :
    ¬ OccursIn open12 x := by
  have hx : occursB open12 x = false := by
    simp [markerFreeB, Bool.and_eq_true] at h
    simpa using h.1
  exact occursB_false_iff.mp hx

theorem markerFree_close {x : List Char} (h : markerFreeB x = true) :
    ¬ OccursIn close13 x := by
  have hx : occursB close13 x = false := by
    simp [markerFreeB, Bool.and_eq_true] at h
    simpa using h.2
  exact occursB_false_iff.mp hx

/-- In `u ++ openMark n ++ X ++ closeMark n ++ v` with `u`, `X`, `v`
free of marker heads, an opening marker for a word-character name `m`
can only start at the placeholder's own opening marker — and then the
names must agree. -/
theorem startsAt_openMark_unique {m n u X v : List Char} {i : Nat}
    (hmw : m.all isWordChar = true)
    (hnw : n.all isWordChar = true)
    (hu : markerFreeB u = true) (hX : markerFreeB X = true) (hv : markerFreeB v = true)
    (h : StartsAt (openMark m) (u ++ (openMark n ++ (X ++ (closeMark n ++ v)))) i) :
    i = u.length ∧ m = n := by
  have hpat : ∃ t, openMark m = open12 ++ t := ⟨m ++ sp4, by simp [openMark]⟩
  have hlt : '<' ∉ (openMark m).drop 1 := openMark_tail_no_lt hmw
  have hpne : openMark m ≠ [] := openMark_ne_nil m
  by_cases hi : i < u.length
  · exact absurd h (no_startsAt_left hpat (markerFree_open hu) hlt
      (by rw [head?_append_of_ne_nil (openMark_ne_nil n), openMark_head?]) hpne hi)
  · have hiu : i = u.length + (i - u.length) := by omega
    rw [hiu] at h
    have hR : StartsAt (openMark m) (openMark n ++ (X ++ (closeMark n ++ v)))
        (i - u.length) := startsAt_unshift h
    by_cases hj0 : i - u.length = 0
    · rw [hj0] at hR
      exact ⟨by omega, openMark_aligned_names hmw hnw hR⟩
    · exfalso
      by_cases hj1 : i - u.length < (openMark n).length
      · obtain ⟨r, hr⟩ := hR
        rw [List.drop_append_of_le_length (le_of_lt hj1)] at hr
        have hdne : (openMark n).drop (i - u.length) ≠ [] := by
          intro hx
          have hlx := congrArg List.length hx
          rw [List.length_drop] at hlx
          simp at hlx
          omega
        have hhead := congrArg List.head? hr
        rw [head?_append_of_ne_nil hdne, head?_append_of_ne_nil hpne, openMark_head?] at hhead
        exact openMark_tail_no_lt hnw (head?_mem_drop_one (by omega) hhead)
      · have hj2 : i - u.length =
            (openMark n).length + (i - u.length - (openMark n).length) := by omega
        rw [hj2] at hR
        have hY : StartsAt (openMark m) (X ++ (closeMark n ++ v))
            (i - u.length - (openMark n).length) := startsAt_unshift hR
        by_cases hj3 : i - u.length - (openMark n).length < X.length
        · exact no_startsAt_left hpat (markerFree_open hX) hlt
            (by rw [head?_append_of_ne_nil (closeMark_ne_nil n), closeMark_head?]) hpne hj3 hY
        · have hj4 : i - u.length - (openMark n).length =
              X.length + (i - u.length - (openMark n).length - X.length) := by omega
          rw [hj4] at hY
          have hZ : StartsAt (openMark m) (closeMark n ++ v)
              (i - u.length - (openMark n).length - X.length) := startsAt_unshift hY
          by_cases hj5 : i - u.length - (openMark n).length - X.length = 0
          · rw [hj5] at hZ
            exact openMark_not_at_closeMark hZ
          · by_cases hj6 : i - u.length - (openMark n).length - X.length <
                (closeMark n).length
            · obtain ⟨r, hr⟩ := hZ
              rw [List.drop_append_of_le_length (le_of_lt hj6)] at hr
              have hdne : (closeMark n).drop
                  (i - u.length - (openMark n).length - X.length) ≠ [] := by
                intro hx
                have hlx := congrArg List.length hx
                rw [List.length_drop] at hlx
                simp at hlx
                omega
              have hhead := congrArg List.head? hr
              rw [head?_append_of_ne_nil hdne, head?_append_of_ne_nil hpne,
                openMark_head?] at hhead
              exact closeMark_tail_no_lt hnw (head?_mem_drop_one (by omega) hhead)
            · have hj7 : i - u.length - (openMark n).length - X.length =
                  (closeMark n).length +
                    (i - u.length - (openMark n).length - X.length -
                      (closeMark n).length) := by omega
              rw [hj7] at hZ
              have hV : StartsAt (openMark m) v
                  (i - u.length - (openMark n).length - X.length -
                    (closeMark n).length) := startsAt_unshift hZ
              exact markerFree_open hv
                (occurs_of_occurs_append (by simp [openMark] : openMark m = open12 ++ (m ++ sp4))
                  (startsAt_occurs hV hpne))

/-- `findSub` returns the designated split when no occurrence starts
earlier. -/
theorem findSub_append_at {pat : List Char} : ∀ {b a : List Char},
    (∀ i, i < b.length → ¬ StartsAt pat (b ++ pat ++ a) i) →
    findSub pat (b ++ pat ++ a) = some (b, a) := by
  intro b
  induction b with
  | nil =>
    intro a _
    simp only [List.nil_append]
    cases hl : pat ++ a with
    | nil =>
      have hp : pat = [] := by
        cases pat with
        | nil => rfl
        | cons x xs => simp at hl
      have ha : a = [] := by
        subst hp
        simpa using hl
      subst hp; subst ha
      simp [findSub, dropStart?]
    | cons c cs =>
      unfold findSub
      cases hd : dropStart? pat (c :: cs) with
      | none =>
        rw [← hl, dropStart?_self] at hd
        exact absurd hd (by simp)
      | some r =>
        have hra : r = a := by
          rw [← hl, dropStart?_self] at hd
          injection hd with hv
          exact hv.symm
        subst hra
        rfl
  | cons c b' ih =>
    intro a hno
    have hstep : dropStart? pat (c :: b' ++ pat ++ a) = none := by
      cases hd : dropStart? pat (c :: b' ++ pat ++ a) with
      | none => rfl
      | some r =>
        exfalso
        exact hno 0 (by simp) ⟨r, by simpa using dropStart?_eq_some.mp hd⟩
    show findSub pat (c :: (b' ++ pat ++ a)) = some (c :: b', a)
    unfold findSub
    rw [show (c :: (b' ++ pat ++ a)) = (c :: b' ++ pat ++ a) by simp, hstep]
    have hrec := ih (a := a) (fun i hi hS => by
      refine hno (i + 1) (by simp; omega) ?_
      obtain ⟨r, hr⟩ := hS
      exact ⟨r, by simpa using hr⟩)
    rw [show (b' ++ pat ++ a : List Char) = b' ++ (pat ++ a) by simp] at hrec ⊢
    rw [hrec]

/-- Fuel does not matter once it covers the list length. -/
theorem substAux_congr (nm : List Char) (t : List TItem) : ∀ (f1 : Nat) {l : List Char}
    (f2 : Nat), l.length ≤ f1 → l.length ≤ f2 → substAux nm t f1 l = substAux nm t f2 l := by
  intro f1
  induction f1 with
  | zero =>
    intro l f2 h1 _
    have hl : l = [] := by
      cases l with
      | nil => rfl
      | cons c cs => simp at h1
    subst hl
    cases f2 <;> rfl
  | succ f ih =>
    intro l f2 h1 h2
    cases l with
    | nil => cases f2 <;> rfl
    | cons c cs =>
      cases f2 with
      | zero => simp at h2
      | succ g =>
        show substAux nm t (f + 1) (c :: cs) = substAux nm t (g + 1) (c :: cs)
        unfold substAux
        cases hd : dropStart? (openMark nm) (c :: cs) with
        | none =>
          simp only
          rw [ih g (by simpa using Nat.le_of_succ_le_succ (by simpa using h1))
            (by simpa using Nat.le_of_succ_le_succ (by simpa using h2))]
        | some r =>
          simp only
          cases hf : findSub (closeMark nm) r with
          | none =>
            simp only
            rw [ih g (by simpa using Nat.le_of_succ_le_succ (by simpa using h1))
              (by simpa using Nat.le_of_succ_le_succ (by simpa using h2))]
          | some pa =>
            obtain ⟨body, rest2⟩ := pa
            simp only
            have hlen : rest2.length ≤ cs.length := by
              have e1 := dropStart?_eq_some.mp hd
              have e2 := findSub_eq hf
              have l1 := congrArg List.length e1
              have l2 := congrArg List.length e2
              have hop : 0 < (openMark nm).length :=
                List.length_pos.mpr (openMark_ne_nil nm)
              have hcl : 0 < (closeMark nm).length :=
                List.length_pos.mpr (closeMark_ne_nil nm)
              simp at l1 l2
              omega
            rw [List.length_cons] at h1 h2
            rw [ih g (by omega) (by omega)]

theorem reSubManual_nil (nm : List Char) (t : List TItem) : reSubManual nm t [] = [] := rfl

/-- Scanning walks over a region with no match without changing it. -/
theorem reSubManual_append_skip (nm : List Char) (t : List TItem) : ∀ (a z : List Char),
    (∀ i, i < a.length → ¬ StartsAt (openMark nm) (a ++ z) i) →
    reSubManual nm t (a ++ z) = a ++ reSubManual nm t z := by
  intro a
  induction a with
  | nil => intro z _; simp
  | cons c a' ih =>
    intro z hno
    have hstep : dropStart? (openMark nm) (c :: (a' ++ z)) = none := by
      cases hd : dropStart? (openMark nm) (c :: (a' ++ z)) with
      | none => rfl
      | some r =>
        exfalso
        exact hno 0 (by simp) ⟨r, by simpa using dropStart?_eq_some.mp hd⟩
    show substAux nm t ((c :: (a' ++ z)).length) (c :: (a' ++ z)) = (c :: a') ++ reSubManual nm t z
    rw [List.length_cons]
    unfold substAux
    rw [hstep]
    simp only
    have hrec := ih z (fun i hi hS => by
      refine hno (i + 1) (by simp; omega) ?_
      obtain ⟨r, hr⟩ := hS
      exact ⟨r, by simpa using hr⟩)
    rw [show substAux nm t (a' ++ z).length (a' ++ z) = reSubManual nm t (a' ++ z) from rfl,
      hrec]
    simp

/-- Scanning at the placeholder's opening marker consumes the whole
block up to the first matching closing marker and substitutes the
instantiated template. -/
theorem reSubManual_at (nm : List Char) (t : List TItem) (y b2 v2 : List Char)
    (hf : findSub (closeMark nm) y = some (b2, v2)) :
    reSubManual nm t (openMark nm ++ y) =
      applyTemplate t (openMark nm ++ b2 ++ closeMark nm) ++ reSubManual nm t v2 := by
  have hcons : openMark nm ++ y = '<' :: (("!-- MANUAL:".toList ++ nm ++ sp4) ++ y) := by
    rw [openMark_cons]
    simp
  rw [reSubManual, hcons, List.length_cons]
  unfold substAux
  rw [← hcons, dropStart?_self]
  dsimp only
  rw [hf]
  dsimp only
  congr 1
  have hv2 : v2.length ≤ (("!-- MANUAL:".toList ++ nm ++ sp4) ++ y).length := by
    have e2 := findSub_eq hf
    have l2 := congrArg List.length e2
    simp at l2 ⊢
    omega
  exact substAux_congr nm t _ _ hv2 (le_refl _)

/-- A region with no match at all is left unchanged. -/
theorem reSubManual_no_occurrence (nm : List Char) (t : List TItem) (l : List Char)
    (h : ∀ i, ¬ StartsAt (openMark nm) l i) : reSubManual nm t l = l := by
  have hskip := reSubManual_append_skip nm t l [] (fun i hi hS => h i (by simpa using hS))
  rw [List.append_nil] at hskip
  rw [reSubManual_nil] at hskip
  simpa using hskip

theorem applyTemplate_map_lit : ∀ (s matched : List Char),
    applyTemplate (s.map TItem.lit) matched = s := by
  intro s matched
  induction s with
  | nil => rfl
  | cons c cs ih => simp [applyTemplate, ih]

/-- A backslash-free replacement string parses to its own literals. -/
theorem expandTemplateAux_no_backslash : ∀ (fuel : Nat) (l : List Char),
    l.length ≤ fuel → '\\' ∉ l → expandTemplateAux fuel l = some (l.map TItem.lit) := by
  intro fuel
  induction fuel with
  | zero =>
    intro l h1 _
    have hl : l = [] := by
      cases l with
      | nil => rfl
      | cons c cs => simp at h1
    subst hl
    rfl
  | succ f ih =>
    intro l h1 h2
    cases l with
    | nil => rfl
    | cons c cs =>
      have hc : c ≠ '\\' := by
        intro hx
        exact h2 (hx ▸ List.mem_cons_self c cs)
      have hcs : '\\' ∉ cs := fun hx => h2 (List.mem_cons_of_mem c hx)
      have hlen : cs.length ≤ f := by
        rw [List.length_cons] at h1
        omega
      show expandTemplateAux (f + 1) (c :: cs) = some ((c :: cs).map TItem.lit)
      unfold expandTemplateAux
      rw [if_neg hc, ih cs hlen hcs]
      rfl

theorem expandTemplate_no_backslash {l : List Char} (h : '\\' ∉ l) :
    expandTemplate l = some (l.map TItem.lit) :=
  expandTemplateAux_no_backslash l.length l (le_refl _) h

theorem takeWord_sound : ∀ {l w r : List Char}, takeWord l = (w, r) →
    l = w ++ r ∧ w.all isWordChar = true := by
  intro l
  induction l with
  | nil =>
    intro w r h
    injection h with h1 h2
    subst h1; subst h2
    simp
  | cons c cs ih =>
    intro w r h
    unfold takeWord at h
    by_cases hw : isWordChar c
    · rw [if_pos hw] at h
      injection h with h1 h2
      obtain ⟨hcs, hall⟩ := ih (w := (takeWord cs).1) (r := (takeWord cs).2) rfl
      subst h1; subst h2
      constructor
      · rw [List.cons_append, ← hcs]
      · simp [hw, List.all_eq_true]
        intro x hx
        exact List.all_eq_true.mp hall x hx
    · rw [if_neg hw] at h
      injection h with h1 h2
      subst h1; subst h2
      simp

theorem takeWord_word_append {w : List Char} (hw : w.all isWordChar = true)
    (c : Char) (r : List Char) (hc : isWordChar c = false) :
    takeWord (w ++ c :: r) = (w, c :: r) := by
  induction w with
  | nil =>
    unfold takeWord
    simp [hc]
  | cons a w' ih =>
    have ha : isWordChar a = true := (List.all_eq_true.mp hw) a (List.mem_cons_self a w')
    have hw' : w'.all isWordChar = true := by
      rw [List.all_eq_true]
      intro x hx
      exact List.all_eq_true.mp hw x (List.mem_cons_of_mem a hx)
    show takeWord (a :: (w' ++ c :: r)) = (a :: w', c :: r)
    unfold takeWord
    rw [if_pos ha, ih hw']

theorem sp4_cons : sp4 = ' ' :: "-->".toList := by decide

theorem matchOpen_openMark (n rest : List Char) (hn : n ≠ [])
    (hnw : n.all isWordChar = true) :
    matchOpen (openMark n ++ rest) = some (n, rest) := by
  unfold matchOpen
  have h1 : openMark n ++ rest = open12 ++ (n ++ (' ' :: ("-->".toList ++ rest))) := by
    rw [openMark]
    rw [sp4_cons]
    simp
  rw [h1, dropStart?_self]
  dsimp only
  rw [takeWord_word_append hnw ' ' ("-->".toList ++ rest) (by decide)]
  dsimp only
  rw [if_neg (by simpa [List.isEmpty_iff] using hn)]
  have h2 : (' ' :: ("-->".toList ++ rest) : List Char) = sp4 ++ rest := by
    rw [sp4_cons]
    simp
  rw [h2, dropStart?_self]

theorem matchOpen_sound : ∀ {l nm r : List Char}, matchOpen l = some (nm, r) →
    l = openMark nm ++ r ∧ nm ≠ [] ∧ nm.all isWordChar = true := by
  intro l nm r h
  unfold matchOpen at h
  cases hd : dropStart? open12 l with
  | none => rw [hd] at h; exact absurd h (by simp)
  | some r1 =>
    rw [hd] at h
    dsimp only at h
    obtain ⟨w, r2, htw⟩ : ∃ w r2, takeWord r1 = (w, r2) := ⟨_, _, rfl⟩
    rw [htw] at h
    dsimp only at h
    by_cases hemp : w.isEmpty
    · rw [if_pos hemp] at h
      exact absurd h (by simp)
    · rw [if_neg hemp] at h
      cases hsp : dropStart? sp4 r2 with
      | none => rw [hsp] at h; exact absurd h (by simp)
      | some r3 =>
        rw [hsp] at h
        injection h with h'
        injection h' with hnm hr
        obtain ⟨hsplit, hall⟩ := takeWord_sound htw
        have hl : l = open12 ++ r1 := dropStart?_eq_some.mp hd
        have hr2 : r2 = sp4 ++ r3 := dropStart?_eq_some.mp hsp
        subst hnm
        subst hr
        refine ⟨?_, ?_, hall⟩
        · rw [hl, hsplit, hr2, openMark]
          simp
        · simpa [List.isEmpty_iff] using hemp

theorem searchOpenName_head {n : List Char} (rest : List Char) (hn : n ≠ [])
    (hnw : n.all isWordChar = true) :
    searchOpenName (openMark n ++ rest) = some n := by
  have hcons : openMark n ++ rest = '<' :: (("!-- MANUAL:".toList ++ n ++ sp4) ++ rest) := by
    rw [openMark_cons]
    simp
  rw [hcons]
  unfold searchOpenName
  rw [← hcons, matchOpen_openMark n rest hn hnw]

theorem searchOpenName_sound : ∀ {s m : List Char}, searchOpenName s = some m →
    m ≠ [] ∧ m.all isWordChar = true := by
  intro s
  induction s with
  | nil => intro m h; exact absurd h (by simp [searchOpenName])
  | cons c cs ih =>
    intro m h
    unfold searchOpenName at h
    cases hm : matchOpen (c :: cs) with
    | some p =>
      rw [hm] at h
      injection h with h'
      obtain ⟨_, hne, hall⟩ := matchOpen_sound
        (show matchOpen (c :: cs) = some (p.1, p.2) by rw [hm])
      subst h'
      exact ⟨hne, hall⟩
    | none =>
      rw [hm] at h
      exact ih h

/-- Substituting a foreign name around an `n`-placeholder changes
nothing. -/
theorem reSub_other {m n u X v : List Char} (t : List TItem)
    (hmw : m.all isWordChar = true) (hnw : n.all isWordChar = true) (hmn : m ≠ n)
    (hu : markerFreeB u = true) (hX : markerFreeB X = true) (hv : markerFreeB v = true) :
    reSubManual m t (u ++ (openMark n ++ (X ++ (closeMark n ++ v)))) =
      u ++ (openMark n ++ (X ++ (closeMark n ++ v))) :=
  reSubManual_no_occurrence _ _ _ (fun i hS =>
    hmn (startsAt_openMark_unique hmw hnw hu hX hv hS).2)

/-- Substituting the placeholder's own name with a literal fragment
template replaces exactly the placeholder region. -/
theorem reSub_self {n u X v b : List Char}
    (hnw : n.all isWordChar = true)
    (hu : markerFreeB u = true) (hX : markerFreeB X = true) (hv : markerFreeB v = true) :
    reSubManual n ((openMark n ++ b ++ closeMark n).map TItem.lit)
        (u ++ (openMark n ++ (X ++ (closeMark n ++ v)))) =
      u ++ (openMark n ++ (b ++ (closeMark n ++ v))) := by
  have hskip : ∀ i, i < u.length →
      ¬ StartsAt (openMark n) (u ++ (openMark n ++ (X ++ (closeMark n ++ v)))) i := by
    intro i hi hS
    have := (startsAt_openMark_unique hnw hnw hu hX hv hS).1
    omega
  rw [reSubManual_append_skip n _ u _ hskip]
  have hno : ∀ i, i < X.length →
      ¬ StartsAt (closeMark n) (X ++ (closeMark n ++ v)) i := by
    intro i hi
    exact no_startsAt_left ⟨n ++ sp4, by simp [closeMark]⟩ (markerFree_close hX)
      (closeMark_tail_no_lt hnw)
      (by rw [head?_append_of_ne_nil (closeMark_ne_nil n), closeMark_head?])
      (closeMark_ne_nil n) hi
  have hfind : findSub (closeMark n) (X ++ (closeMark n ++ v)) = some (X, v) := by
    rw [← List.append_assoc]
    exact findSub_append_at (fun i hi hS => hno i hi (by rwa [List.append_assoc] at hS))
  rw [reSubManual_at n _ _ X v hfind, applyTemplate_map_lit]
  have hnov : ∀ i, ¬ StartsAt (openMark n) v i := by
    intro i hS
    exact markerFree_open hv
      (occurs_of_occurs_append (by simp [openMark] : openMark n = open12 ++ (n ++ sp4))
        (startsAt_occurs hS (openMark_ne_nil n)))
  rw [reSubManual_no_occurrence n _ v hnov]
  simp

/-- The injection loop on a draft consisting of a single `n`-placeholder
between marker-free surroundings: the `n`-fragment lands at the
placeholder, other well-formed fragments leave the draft unchanged. -/
theorem inject_go {n u v b f : List Char}
    (hnw : n.all isWordChar = true) (hn : n ≠ [])
    (hf : f = openMark n ++ b ++ closeMark n)
    (hu : markerFreeB u = true) (hv : markerFreeB v = true) (hb : markerFreeB b = true) :
    ∀ (F : List (List Char)),
      (∀ g ∈ F, '\\' ∉ g) →
      (∀ g ∈ F, searchOpenName g = some n → g = f) →
      ∀ (X : List Char), markerFreeB X = true →
      injectManualSections (u ++ (openMark n ++ (X ++ (closeMark n ++ v)))) F =
        some (u ++ (openMark n ++ ((if f ∈ F then b else X) ++ (closeMark n ++ v)))) := by
  intro F
  induction F with
  | nil =>
    intro _ _ X hX
    simp [injectManualSections]
  | cons g F' ih =>
    intro hbs huniq X hX
    have hsf : searchOpenName f = some n := by
      rw [hf, show openMark n ++ b ++ closeMark n = openMark n ++ (b ++ closeMark n) by simp]
      exact searchOpenName_head _ hn hnw
    unfold injectManualSections
    cases hsg : searchOpenName g with
    | none =>
      have hgf : g ≠ f := by
        intro hgf
        rw [hgf, hsf] at hsg
        exact absurd hsg (by simp)
      have hmem : (f ∈ g :: F') ↔ (f ∈ F') := by
        constructor
        · intro hx
          rcases List.mem_cons.mp hx with hx | hx
          · exact absurd hx.symm hgf
          · exact hx
        · exact fun hx => List.mem_cons_of_mem g hx
      rw [ih (fun g' hg' => hbs g' (List.mem_cons_of_mem g hg'))
        (fun g' hg' => huniq g' (List.mem_cons_of_mem g hg')) X hX]
      simp only [hmem]
    | some mg =>
      have hmgw := searchOpenName_sound hsg
      have hexp : expandTemplate g = some (g.map TItem.lit) :=
        expandTemplate_no_backslash (hbs g (List.mem_cons_self g F'))
      rw [hexp]
      dsimp only
      by_cases hmn : mg = n
      · have hgf : g = f := huniq g (List.mem_cons_self g F') (by rw [hsg, hmn])
        rw [show List.map TItem.lit g = List.map TItem.lit (openMark n ++ b ++ closeMark n) by
          rw [hgf, hf]]
        rw [hmn, reSub_self hnw hu hX hv]
        rw [ih (fun g' hg' => hbs g' (List.mem_cons_of_mem _ hg'))
          (fun g' hg' => huniq g' (List.mem_cons_of_mem _ hg')) b hb]
        have hfmem : f ∈ g :: F' := hgf ▸ List.mem_cons_self g F'
        rw [if_pos hfmem]
        simp only [ite_self]
      · have hgf : g ≠ f := by
          intro hgf
          rw [hgf, hsf] at hsg
          injection hsg with hx
          exact hmn hx.symm
        rw [reSub_other (g.map TItem.lit) hmgw.2 hnw hmn hu hX hv]
        have hmem : (f ∈ g :: F') ↔ (f ∈ F') := by
          constructor
          · intro hx
            rcases List.mem_cons.mp hx with hx | hx
            · exact absurd hx.symm hgf
            · exact hx
          · exact fun hx => List.mem_cons_of_mem g hx
        rw [ih (fun g' hg' => hbs g' (List.mem_cons_of_mem g hg'))
          (fun g' hg' => huniq g' (List.mem_cons_of_mem g hg')) X hX]
        simp only [hmem]

/-- C2 counterexample: a preserved fragment whose body contains the two
characters backslash-`n`.  Extraction returns the fragment verbatim, but
`re.sub` treats the fragment as a replacement template, so injection
turns the two-character sequence into a single newline: the fragment is
not reproduced byte-for-byte at the placeholder. -/
theorem C2_counterexample_backslash_template :
    extractManualSections "<!-- MANUAL:c -->a\\nb<!-- /MANUAL:c -->".toList
        = ["<!-- MANUAL:c -->a\\nb<!-- /MANUAL:c -->".toList]
    ∧ injectManualSections "<!-- MANUAL:c -->x<!-- /MANUAL:c -->".toList
        ["<!-- MANUAL:c -->a\\nb<!-- /MANUAL:c -->".toList]
        = some "<!-- MANUAL:c -->a\nb<!-- /MANUAL:c -->".toList
    ∧ "<!-- MANUAL:c -->a\nb<!-- /MANUAL:c -->".toList
        ≠ "<!-- MANUAL:c -->a\\nb<!-- /MANUAL:c -->".toList :=
  ⟨by decide, by decide, by decide⟩

/-- C2 (amended): for a fragment extracted from the artifact whose text
contains no backslash, whose body contains no marker heads, and whose
name is not shared by any other extracted fragment, injecting the
extracted fragments into a draft consisting of one placeholder for that
name between marker-free surroundings reproduces the fragment verbatim
at the placeholder's location (other fragments, having no placeholder,
are dropped). -/
theorem C2_amended_roundtrip (A : List Char) (F : List (List Char))
    (f n b u p v : List Char)
    (hF : extractManualSections A = F)
    (hfF : f ∈ F)
    (hshape : f = openMark n ++ b ++ closeMark n)
    (hn : n ≠ []) (hnw : n.all isWordChar = true)
    (hbs : ∀ g ∈ F, '\\' ∉ g)
    (huniq : ∀ g ∈ F, searchOpenName g = some n → g = f)
    (hb : markerFreeB b = true) (hu : markerFreeB u = true)
    (hp : markerFreeB p = true) (hv : markerFreeB v = true) :
    injectManualSections (u ++ openMark n ++ p ++ closeMark n ++ v) F =
      some (u ++ f ++ v) := by
  have h := inject_go hnw hn hshape hu hv hb F hbs huniq p hp
  rw [if_pos hfF] at h
  calc injectManualSections (u ++ openMark n ++ p ++ closeMark n ++ v) F
      = injectManualSections (u ++ (openMark n ++ (p ++ (closeMark n ++ v)))) F := by
        congr 1
        simp
    _ = some (u ++ (openMark n ++ (b ++ (closeMark n ++ v)))) := h
    _ = some (u ++ f ++ v) := by
        rw [hshape]
        simp

/-- Witness for C2 (amended): artifact with one `notes` fragment,
draft with one `notes` placeholder. -/
theorem C2_amended_roundtrip_witness :
    extractManualSections "<!-- MANUAL:notes -->my notes<!-- /MANUAL:notes -->".toList
        = ["<!-- MANUAL:notes -->my notes<!-- /MANUAL:notes -->".toList]
    ∧ injectManualSections
        ("<p>x</p>".toList ++ openMark "notes".toList ++ "old".toList ++
          closeMark "notes".toList ++ "<p>y</p>".toList)
        ["<!-- MANUAL:notes -->my notes<!-- /MANUAL:notes -->".toList]
      = some ("<p>x</p>".toList ++
          "<!-- MANUAL:notes -->my notes<!-- /MANUAL:notes -->".toList ++ "<p>y</p>".toList) :=
  ⟨by decide,
    C2_amended_roundtrip "<!-- MANUAL:notes -->my notes<!-- /MANUAL:notes -->".toList
      ["<!-- MANUAL:notes -->my notes<!-- /MANUAL:notes -->".toList]
      "<!-- MANUAL:notes -->my notes<!-- /MANUAL:notes -->".toList
      "notes".toList "my notes".toList "<p>x</p>".toList "old".toList "<p>y</p>".toList
      (by decide) (by decide) (by decide) (by decide) (by decide) (by decide) (by decide)
      (by decide) (by decide) (by decide) (by decide)⟩

end SiteOps
